/-
Verification development for the clockTUIfy weekly time-tracking client.

The Python sources (app.py, clockify_api.py, week_utils.py) are shallowly
embedded below:

* Calendar dates are modelled as integers counting days since 1970-01-01
  (which was a Thursday), so Python's date.weekday() (Monday = 0) becomes
  fun d => (d + 3) % 7.
* Python float literals and float arithmetic in the duration codec are
  modelled by exact decimal arithmetic: a parsed literal denotes
  mantissa * 10 ^ exponent, and round(x) is round-half-to-even, as in
  Python.  Special float forms (inf, nan, underscore separators, unicode
  digits) are outside the model.
* The remote Clockify service is modelled as a state (a list of entries
  plus a fresh-id counter) together with a schedule of network-call
  outcomes: each HTTP round-trip consumes one slot of the schedule, and a
  true slot makes that call raise (requests raise_for_status).
-/
import Mathlib

set_option maxHeartbeats 1000000

/-! ## Decimal digit utilities -/

/-- Numeric value of a digit character (c.toNat - 48). -/
def digitVal (c : Char) : Nat := c.toNat - 48

/-- The character for a decimal digit d (valid for d < 10). -/
def digitChar (d : Nat) : Char := Char.ofNat (48 + d)

/-- Splits a character list into its longest prefix of decimal digits and
the remainder, like a greedy regex digit run. -/
def splitDigits : List Char → List Char × List Char
  | [] => ([], [])
  | c :: rest =>
    if c.isDigit then ((c :: (splitDigits rest).1), (splitDigits rest).2)
    else ([], c :: rest)

/-- Value of a digit-character list read most-significant first, as done by
int() and float() on a digit run. -/
def digitsToNat (cs : List Char) : Nat :=
  cs.foldl (fun a c => 10 * a + digitVal c) 0

/-- Decimal digits of n, least significant first; the first argument is
fuel (n itself is always enough). -/
def natToDigitsRevAux : Nat → Nat → List Nat
  | _, 0 => []
  | n, fuel + 1 => if n = 0 then [] else n % 10 :: natToDigitsRevAux (n / 10) fuel

/-- Character list of the usual decimal rendering of n, as produced by
Python str() on a non-negative int. -/
def natToStrData (a : Nat) : List Char :=
  if a = 0 then ['0'] else ((natToDigitsRevAux a a).reverse).map digitChar

/-- Decimal rendering of n, as produced by Python str() on a non-negative
int. -/
def natToStr (a : Nat) : String := String.mk (natToStrData a)

/-! ## Duration codec (app.py parse_hours / format_minutes)

Python float text is modelled exactly: parsing yields a pair (n, e) with
the denoted value n * 10 ^ e, and round(hours * 60) becomes an exact
round-half-to-even integer division. -/

/-- Round-half-to-even of a / b for b > 0 (Python round() semantics on an
exact quotient; Int.ediv is floor division for a positive divisor). -/
def rndDiv (a b : ℤ) : ℤ :=
  let q := a / b
  let r := a - q * b
  if 2 * r < b then q
  else if b < 2 * r then q + 1
  else if q % 2 = 0 then q else q + 1

/-- Tail of a Python float literal after the mantissa: either nothing, or
an exponent marker with optionally signed digits.  Carries the mantissa n
and the decimal exponent e accumulated so far. -/
def parseExpTail (r : List Char) (n : Nat) (e : ℤ) : Option (Nat × ℤ) :=
  let sgn : ℤ := match r with
    | '+' :: _ => 1
    | '-' :: _ => -1
    | _ => 1
  let r2 : List Char := match r with
    | '+' :: t => t
    | '-' :: t => t
    | _ => r
  let ds := (splitDigits r2).1
  let r3 := (splitDigits r2).2
  if ds = [] ∨ r3 ≠ [] then none
  else some (n, e + sgn * (digitsToNat ds : ℤ))

/-- Optional exponent part of a Python float literal. -/
def parseExp? (r : List Char) (n : Nat) (e : ℤ) : Option (Nat × ℤ) :=
  match r with
  | [] => some (n, e)
  | 'e' :: rest => parseExpTail rest n e
  | 'E' :: rest => parseExpTail rest n e
  | _ => none

/-- Continuation of float parsing once the integer-part digit run ip has
been consumed and r1 remains: optional fractional part, then exponent. -/
def parseAfterInt (ip : List Char) (r1 : List Char) : Option (Nat × ℤ) :=
  match r1 with
  | '.' :: r2 =>
    let fp := (splitDigits r2).1
    let r3 := (splitDigits r2).2
    if ip = [] ∧ fp = [] then none
    else parseExp? r3 (digitsToNat ip * 10 ^ fp.length + digitsToNat fp) (-(fp.length : ℤ))
  | r1 => if ip = [] then none else parseExp? r1 (digitsToNat ip) 0

/-- Unsigned Python float literal: digits, optional dot and fraction,
optional exponent; the result (n, e) denotes n * 10 ^ e. -/
def parseUnsigned? (cs : List Char) : Option (Nat × ℤ) :=
  parseAfterInt (splitDigits cs).1 (splitDigits cs).2

/-- Python float(text) on a finite decimal literal with optional sign; the
result (n, e) denotes n * 10 ^ e. -/
def parsePyFloat? (cs : List Char) : Option (ℤ × ℤ) :=
  match cs with
  | [] => none
  | c :: rest =>
    if c = '+' then (parseUnsigned? rest).map (fun p => ((p.1 : ℤ), p.2))
    else if c = '-' then (parseUnsigned? rest).map (fun p => (-(p.1 : ℤ), p.2))
    else (parseUnsigned? (c :: rest)).map (fun p => ((p.1 : ℤ), p.2))

/-- Python str.replace(",", ".") acts on each character. -/
def commaToDot (c : Char) : Char := if c = ',' then '.' else c

/-- Core of app.py parse_hours on the character list of the input: empty
text yields 0, a comma decimal separator is normalized to a dot, the rest
is parsed as decimal hours and converted to minutes by round(hours * 60);
unparseable text yields 0. -/
def parseHoursCore (cs : List Char) : ℤ :=
  if cs = [] then 0
  else
    match parsePyFloat? (cs.map commaToDot) with
    | none => 0
    | some p =>
      if 0 ≤ p.2 then p.1 * 60 * (10 : ℤ) ^ p.2.toNat
      else rndDiv (p.1 * 60) ((10 : ℤ) ^ (-p.2).toNat)

/-- app.py parse_hours. -/
def parse_hours (s : String) : ℤ := parseHoursCore s.data

/-- Whitespace characters stripped by Python str.strip(). -/
def isPySpace (c : Char) : Bool :=
  c = ' ' ∨ c = '\t' ∨ c = '\n' ∨ c = '\r' ∨ c = '\x0b' ∨ c = '\x0c'

/-- Python str.strip(). -/
def pyStrip (cs : List Char) : List Char :=
  ((cs.dropWhile isPySpace).reverse.dropWhile isPySpace).reverse

/-- The value the submit path derives from an input field: the field text
is stripped (app.py submit_hours does inp.value.strip()) and then passed
through parse_hours.  This composition is the spec's textToMinutes. -/
def textToMinutes (s : String) : ℤ := parseHoursCore (pyStrip s.data)

/-- app.py format_minutes: 0 renders as the empty string; a whole number
of hours renders as an integer; otherwise the hours are rounded to one
decimal place (Python round(x, 1), half-to-even) and rendered with one
digit after the dot. -/
def format_minutes (m : Nat) : String :=
  if m = 0 then ""
  else if m % 60 = 0 then natToStr (m / 60)
  else
    let t := (rndDiv (10 * m) 60).toNat
    natToStr (t / 10) ++ "." ++ String.mk [digitChar (t % 10)]

/-! ## Remote duration decoding (clockify_api.py parse_duration) -/

/-- One optional component of the duration regex PT(\d+H)?(\d+M)?: a digit
run immediately followed by the given suffix letter; if absent, nothing is
consumed and the value is 0. -/
def grabNum (cs : List Char) (suffix : Char) : Nat × List Char :=
  let ds := (splitDigits cs).1
  let r := (splitDigits cs).2
  match r with
  | c :: r2 => if c = suffix ∧ ds ≠ [] then (digitsToNat ds, r2) else (0, cs)
  | [] => (0, cs)

/-- clockify_api.py parse_duration: re.match of PT(?:(\d+)H)?(?:(\d+)M)?
(a prefix match; a missing component defaults to 0, a string not starting
with PT yields 0), returning hours * 60 + minutes. -/
def parse_duration (s : String) : Nat :=
  match s.data with
  | 'P' :: 'T' :: rest =>
    let h := (grabNum rest 'H').1
    let r1 := (grabNum rest 'H').2
    let m := (grabNum r1 'M').1
    h * 60 + m
  | _ => 0

/-! ## Day aggregator (clockify_api.py get_time_entries)

A raw ledger entry as the range query returns it: the owning project id,
the calendar date of its start timestamp (grouping uses start.date(), so
only the date component matters), and its encoded duration (the empty
string models a missing duration, e.g. a running timer). -/

structure RawEntry where
  projectId : String
  day : ℤ
  duration : String
deriving DecidableEq, Repr

/-- Lookup in an insertion-ordered association list, as dict indexing. -/
def lookupDay (d : ℤ) : List (ℤ × ℕ) → Option ℕ
  | [] => none
  | p :: rest => if p.1 = d then some p.2 else lookupDay d rest

/-- day_minutes[day] = day_minutes.get(day, 0) + v on an insertion-ordered
dict: update the existing key in place, or append a new binding. -/
def dmAdd (m : List (ℤ × ℕ)) (d : ℤ) (v : ℕ) : List (ℤ × ℕ) :=
  match lookupDay d m with
  | some _ => m.map (fun p => if p.1 = d then (p.1, p.2 + v) else p)
  | none => m ++ [(d, v)]

/-- The grouping loop of get_time_entries: entries of other projects are
skipped; each remaining entry adds parse_duration of its duration to the
bucket of its start date. -/
def aggGo (pid : String) : List RawEntry → List (ℤ × ℕ) → List (ℤ × ℕ)
  | [], acc => acc
  | e :: rest, acc =>
    if e.projectId = pid then aggGo pid rest (dmAdd acc e.day (parse_duration e.duration))
    else aggGo pid rest acc

/-- clockify_api.py get_time_entries: the week argument only determines
the start/end parameters of the HTTP range query; the ledger's response is
the entries argument, and the grouping below is exactly the Python loop
(note that it never consults the week again). -/
def get_time_entries (pid : String) (week : List ℤ) (entries : List RawEntry) : List (ℤ × ℕ) :=
  aggGo pid entries []

/-- Total parsed minutes of the entries matching a project and day; the
value the aggregation stores under a present key. -/
def sumMatching (pid : String) (d : ℤ) (entries : List RawEntry) : Nat :=
  ((entries.filter (fun e => decide (e.projectId = pid) && decide (e.day = d))).map
    (fun e => parse_duration e.duration)).sum

/-! ## Week window (week_utils.py)

Dates are days since 1970-01-01 (a Thursday). -/

/-- Python date.weekday() (Monday = 0) on an epoch-day date. -/
def pyWeekday (d : ℤ) : ℤ := (d + 3) % 7

/-- week_utils.py get_week_dates: the Monday of today's week, shifted by
offset_weeks whole weeks, then 7 consecutive dates.  The current date is
a parameter (the source reads the wall clock). -/
def get_week_dates (today : ℤ) (offset_weeks : ℤ) : List ℤ :=
  (List.range 7).map (fun i => today - pyWeekday today + 7 * offset_weeks + (i : ℤ))

/-- week_utils.py is_future_date: date > today.  The current date is a
parameter (the source reads the wall clock). -/
def is_future_date (d : ℤ) (today : ℤ) : Bool := today < d

/-! ## Reconciliation (app.py submit_hours) -/

/-- One day input of the week view, as reset_ui builds it: its calendar
date, its raw text, and whether it is disabled (future dates). -/
structure DayInput where
  date : ℤ
  value : String
  disabled : Bool
deriving DecidableEq, Repr

/-- A reconciliation action: delete the day's entries, or create/replace
the day with the given minutes. -/
inductive ChangeOp where
  | del (d : ℤ)
  | cr (d : ℤ) (minutes : ℤ)
deriving DecidableEq, Repr

/-- The date an action targets. -/
def opDate : ChangeOp → ℤ
  | .del d => d
  | .cr d _ => d

/-- The ledger action the submit_hours loop body performs for one input
field, read off app.py lines 261-281: disabled fields are skipped;
otherwise minutes is parse_hours of the stripped text and
had_previous_value is membership in prefilled_hours with a positive value;
minutes == 0 with a previous value deletes, positive minutes books when
there was no previous value or the value changed (the prefilled value is
only indexed under had_previous_value, so getD 0 agrees with the source's
guarded indexing). -/
def changeOp? (prefilled : List (ℤ × ℕ)) (f : DayInput) : Option ChangeOp :=
  if f.disabled then none
  else
    let minutes := textToMinutes f.value
    let hadPrev : Bool := match lookupDay f.date prefilled with
      | some v => decide (0 < v)
      | none => false
    if minutes = 0 ∧ hadPrev = true then some (.del f.date)
    else if 0 < minutes ∧ (hadPrev = false ∨ minutes ≠ ((lookupDay f.date prefilled).getD 0 : ℤ)) then
      some (.cr f.date minutes)
    else none

/-- The ordered actions one submit emits for the week's fields. -/
def computeChangeOps (prefilled : List (ℤ × ℕ)) (fields : List DayInput) : List ChangeOp :=
  fields.filterMap (changeOp? prefilled)

/-- Follows the spec's words (section 4.4 computeChangeOps), for
comparison with the code: with editedMinutes and baselineMinutes (0 if
absent) given, emit Delete when editedMinutes == 0 and baselineMinutes >
0, CreateOrReplace when editedMinutes > 0 and editedMinutes differs from
baselineMinutes, and nothing otherwise. -/
def specChangeOp (d : ℤ) (edited : ℤ) (baseline : ℕ) : Option ChangeOp :=
  if edited = 0 ∧ 0 < baseline then some (.del d)
  else if 0 < edited ∧ edited ≠ (baseline : ℤ) then some (.cr d edited)
  else none

/-- The day inputs reset_ui builds for a week: one field per date, value
given by the prefill text, disabled exactly for future dates. -/
def buildFields (today : ℤ) (vals : ℤ → String) (week : List ℤ) : List DayInput :=
  week.map (fun d => ⟨d, vals d, is_future_date d today⟩)

/-! ## Remote ledger state machine (clockify_api.py book_time /
delete_time_entry)

Each HTTP round-trip consumes one slot of the failure schedule; a true
slot makes the call fail (requests raise_for_status raises). -/

/-- A stored remote time entry: its id, owning project, calendar day, and
booked minutes (end - start of the created interval). -/
structure Entry where
  id : Nat
  projectId : String
  day : ℤ
  minutes : ℤ
deriving DecidableEq, Repr

/-- Remote-service state: the stored entries, the id the next created
entry receives, and the schedule of outcomes for upcoming HTTP calls
(true = that call fails; an exhausted schedule means success). -/
structure Sim where
  entries : List Entry
  nextId : Nat
  schedule : List Bool
deriving DecidableEq, Repr

/-- Outcome of a fallible remote operation: normal return, or an
uncaught requests exception, each with the state it leaves behind. -/
inductive Res where
  | ok (s : Sim)
  | err (s : Sim)
deriving DecidableEq, Repr

/-- Performs one HTTP round-trip: consumes the next schedule slot and
reports whether the call failed. -/
def takeCall (s : Sim) : Bool × Sim :=
  match s.schedule with
  | [] => (false, s)
  | b :: rest => (b, { s with schedule := rest })

/-- The deletion loop of delete_time_entry: one DELETE call per matched
entry id; a failing call raises with the earlier deletions kept. -/
def deleteEach : Sim → List Nat → Res
  | sim, [] => .ok sim
  | sim, i :: rest =>
    let c := takeCall sim
    if c.1 then .err c.2
    else deleteEach { c.2 with entries := c.2.entries.filter (fun e => decide (e.id ≠ i)) } rest

/-- clockify_api.py delete_time_entry: one GET for the day's entries (all
projects; the range query is the day itself), then a DELETE per entry
whose project matches. -/
def delete_time_entry (sim : Sim) (pid : String) (d : ℤ) : Res :=
  let c := takeCall sim
  if c.1 then .err c.2
  else
    deleteEach c.2
      (((c.2.entries.filter (fun e => decide (e.day = d) && decide (e.projectId = pid))).map Entry.id))

/-- clockify_api.py book_time: non-positive minutes return immediately
with no call at all; otherwise existing entries for the project and day
are deleted first, then one POST creates the new entry. -/
def book_time (sim : Sim) (pid : String) (d : ℤ) (m : ℤ) : Res :=
  if m ≤ 0 then .ok sim
  else
    match delete_time_entry sim pid d with
    | .err s => .err s
    | .ok s1 =>
      let c := takeCall s1
      if c.1 then .err c.2
      else .ok { c.2 with
                 entries := c.2.entries ++ [⟨c.2.nextId, pid, d, m⟩],
                 nextId := c.2.nextId + 1 }

/-- Executes one reconciliation action against the ledger. -/
def applyOp (pid : String) (sim : Sim) : ChangeOp → Res
  | .del d => delete_time_entry sim pid d
  | .cr d m => book_time sim pid d m

/-- Runs a list of actions in order, stopping at the first failure. -/
def runOps (pid : String) : Sim → List ChangeOp → Res
  | sim, [] => .ok sim
  | sim, op :: rest =>
    match applyOp pid sim op with
    | .ok s1 => runOps pid s1 rest
    | .err s1 => .err s1

/-- app.py submit_hours: walk the week's input fields in order; for each
field the loop body performs the action changeOp? describes (or none), and
an uncaught requests exception aborts the remaining iterations. -/
def submit_hours (pid : String) (prefilled : List (ℤ × ℕ)) : Sim → List DayInput → Res
  | sim, [] => .ok sim
  | sim, f :: rest =>
    match changeOp? prefilled f with
    | none => submit_hours pid prefilled sim rest
    | some op =>
      match applyOp pid sim op with
      | .ok s1 => submit_hours pid prefilled s1 rest
      | .err s1 => .err s1

/-- Value of a digit list read least-significant first; specification
device for the decimal rendering. -/
def valLSB : List Nat → Nat
  | [] => 0
  | d :: ds => d + 10 * valLSB ds

/-! # Lemmas and claim theorems -/

/-! ## Decimal rendering and parsing of digit runs -/

theorem digitChar_isDigit {d : Nat} (hd : d < 10) : (digitChar d).isDigit = true := by
  interval_cases d <;> decide

theorem digitVal_digitChar {d : Nat} (hd : d < 10) : digitVal (digitChar d) = d := by
  interval_cases d <;> decide

theorem isDigit_ne_signs {c : Char} (h : c.isDigit = true) :
    c ≠ '+' ∧ c ≠ '-' ∧ c ≠ ',' ∧ c ≠ '.' := by
  refine ⟨?_, ?_, ?_, ?_⟩ <;> rintro rfl <;> exact absurd h (by decide)

theorem natToDigitsRevAux_lt_ten : ∀ (fuel n d : Nat), d ∈ natToDigitsRevAux n fuel → d < 10 := by
  intro fuel
  induction fuel with
  | zero => intro n d h; simp [natToDigitsRevAux] at h
  | succ fuel ih =>
    intro n d h
    rw [natToDigitsRevAux] at h
    split at h
    · simp at h
    · rcases List.mem_cons.mp h with h | h
      · omega
      · exact ih _ _ h

theorem valLSB_natToDigitsRevAux : ∀ (fuel n : Nat), n ≤ fuel →
    valLSB (natToDigitsRevAux n fuel) = n := by
  intro fuel
  induction fuel with
  | zero => intro n hn; interval_cases n; rfl
  | succ fuel ih =>
    intro n hn
    rw [natToDigitsRevAux]
    split
    · simp [valLSB]; omega
    · rename_i hn0
      rw [valLSB, ih (n / 10) (by omega)]
      omega

theorem foldl_digits_eq (ds : List Nat) (h : ∀ d ∈ ds, d < 10) : ∀ acc : Nat,
    List.foldl (fun a d => 10 * a + digitVal (digitChar d)) acc ds =
    List.foldl (fun a d => 10 * a + d) acc ds := by
  induction ds with
  | nil => intro acc; rfl
  | cons d ds ih =>
    intro acc
    have hd : d < 10 := h d (by simp)
    simp only [List.foldl_cons, digitVal_digitChar hd]
    exact ih (fun x hx => h x (by simp [hx])) _

theorem foldl_reverse_valLSB (ds : List Nat) :
    List.foldl (fun a d => 10 * a + d) 0 ds.reverse = valLSB ds := by
  induction ds with
  | nil => rfl
  | cons d ds ih =>
    rw [List.reverse_cons, List.foldl_append, ih]
    simp [valLSB]
    omega

theorem digitsToNat_natToStrData (a : Nat) : digitsToNat (natToStrData a) = a := by
  by_cases ha : a = 0
  · subst ha; decide
  · rw [natToStrData, if_neg ha]
    unfold digitsToNat
    rw [List.foldl_map]
    have hlt : ∀ d ∈ (natToDigitsRevAux a a).reverse, d < 10 := by
      intro d hd
      exact natToDigitsRevAux_lt_ten a a d (List.mem_reverse.mp hd)
    rw [foldl_digits_eq _ hlt, foldl_reverse_valLSB, valLSB_natToDigitsRevAux a a le_rfl]

theorem natToStrData_digits (a : Nat) : ∀ c ∈ natToStrData a, c.isDigit = true := by
  intro c hc
  by_cases ha : a = 0
  · subst ha; simp [natToStrData] at hc; subst hc; decide
  · rw [natToStrData, if_neg ha] at hc
    rcases List.mem_map.mp hc with ⟨d, hd, rfl⟩
    exact digitChar_isDigit (natToDigitsRevAux_lt_ten a a d (List.mem_reverse.mp hd))

theorem natToStrData_ne_nil (a : Nat) : natToStrData a ≠ [] := by
  by_cases ha : a = 0
  · subst ha; decide
  · rw [natToStrData, if_neg ha]
    intro h
    rcases Nat.exists_eq_succ_of_ne_zero ha with ⟨k, rfl⟩
    rw [natToDigitsRevAux, if_neg (by omega)] at h
    simp at h

theorem splitDigits_all {l : List Char} (h : ∀ c ∈ l, c.isDigit = true) :
    splitDigits l = (l, []) := by
  induction l with
  | nil => rfl
  | cons c rest ih =>
    rw [splitDigits, if_pos (h c (by simp))]
    rw [ih (fun x hx => h x (by simp [hx]))]

theorem splitDigits_append {l r : List Char} (h : ∀ c ∈ l, c.isDigit = true)
    (hr : ∀ c, r.head? = some c → c.isDigit = false) :
    splitDigits (l ++ r) = (l, r) := by
  induction l with
  | nil =>
    cases r with
    | nil => rfl
    | cons c r2 =>
      rw [List.nil_append, splitDigits, if_neg]
      rw [hr c rfl]
      simp
  | cons c rest ih =>
    rw [List.cons_append, splitDigits, if_pos (h c (by simp))]
    rw [ih (fun x hx => h x (by simp [hx]))]

/-! ## Reduction lemmas for the float parser -/

theorem parseExp?_nil (n : Nat) (e : ℤ) : parseExp? [] n e = some (n, e) := rfl

theorem parseAfterInt_nil (ip : List Char) :
    parseAfterInt ip [] = if ip = [] then none else parseExp? [] (digitsToNat ip) 0 := rfl

theorem parseAfterInt_dot (ip r2 : List Char) :
    parseAfterInt ip ('.' :: r2) =
      if ip = [] ∧ (splitDigits r2).1 = [] then none
      else parseExp? (splitDigits r2).2
        (digitsToNat ip * 10 ^ (splitDigits r2).1.length + digitsToNat (splitDigits r2).1)
        (-((splitDigits r2).1.length : ℤ)) := rfl

theorem parsePyFloat?_cons (c : Char) (rest : List Char) :
    parsePyFloat? (c :: rest) =
      if c = '+' then (parseUnsigned? rest).map (fun p => ((p.1 : ℤ), p.2))
      else if c = '-' then (parseUnsigned? rest).map (fun p => (-(p.1 : ℤ), p.2))
      else (parseUnsigned? (c :: rest)).map (fun p => ((p.1 : ℤ), p.2)) := rfl

theorem parsePyFloat?_digits {l : List Char} (h : ∀ c ∈ l, c.isDigit = true) (hne : l ≠ []) :
    parsePyFloat? l = some ((digitsToNat l : ℤ), 0) := by
  cases l with
  | nil => exact absurd rfl hne
  | cons c rest =>
    obtain ⟨h1, h2, _, _⟩ := isDigit_ne_signs (h c (by simp))
    rw [parsePyFloat?_cons, if_neg h1, if_neg h2]
    simp only [parseUnsigned?]
    rw [splitDigits_all h]
    simp only [parseAfterInt_nil, if_neg hne, parseExp?_nil, Option.map_some']

theorem parsePyFloat?_dec {l : List Char} (h : ∀ c ∈ l, c.isDigit = true) (hne : l ≠ [])
    {d : Nat} (hd : d < 10) :
    parsePyFloat? (l ++ '.' :: [digitChar d]) = some (((digitsToNat l * 10 + d : ℕ) : ℤ), -1) := by
  have hsplit : splitDigits (l ++ '.' :: [digitChar d]) = (l, '.' :: [digitChar d]) := by
    apply splitDigits_append h
    intro c hc
    simp at hc
    subst hc
    decide
  have hfrac : splitDigits [digitChar d] = ([digitChar d], []) := by
    apply splitDigits_all
    intro c hc
    simp at hc
    subst hc
    exact digitChar_isDigit hd
  cases l with
  | nil => exact absurd rfl hne
  | cons c rest =>
    obtain ⟨h1, h2, _, _⟩ := isDigit_ne_signs (h c (by simp))
    rw [List.cons_append, parsePyFloat?_cons, if_neg h1, if_neg h2, ← List.cons_append]
    simp only [parseUnsigned?]
    rw [hsplit]
    simp only [parseAfterInt_dot, hfrac]
    rw [if_neg (by simp [hne])]
    simp only [parseExp?_nil, Option.map_some', List.length_singleton]
    have hdv : digitsToNat [digitChar d] = d := by
      simp only [digitsToNat, List.foldl_cons, List.foldl_nil, Nat.mul_zero, Nat.zero_add]
      exact digitVal_digitChar hd
    rw [hdv]
    norm_num

theorem map_commaToDot_id {cs : List Char} (h : ∀ c ∈ cs, c ≠ ',') :
    cs.map commaToDot = cs := by
  induction cs with
  | nil => rfl
  | cons c rest ih =>
    rw [List.map_cons, ih (fun x hx => h x (by simp [hx]))]
    rw [commaToDot, if_neg (h c (by simp))]

/-! ## Rounding lemmas -/

theorem rndDiv_nonneg {a b : ℤ} (ha : 0 ≤ a) (hb : 0 < b) : 0 ≤ rndDiv a b := by
  unfold rndDiv
  have hq : 0 ≤ a / b := Int.ediv_nonneg ha (le_of_lt hb)
  dsimp only
  split_ifs <;> omega

theorem rndDiv_mul_left {b c : ℤ} (hb : 0 < b) : rndDiv (b * c) b = c := by
  unfold rndDiv
  dsimp only
  rw [Int.mul_ediv_cancel_left c (ne_of_gt hb)]
  have h0 : b * c - c * b = 0 := by ring
  rw [h0]
  rw [if_pos (by omega)]


/-! ## Claim C6: textToMinutes totality and non-negativity -/

theorem parsePyFloat?_fst_nonneg {cs : List Char} (h : ∀ c ∈ cs, c ≠ '-') {p : ℤ × ℤ}
    (hp : parsePyFloat? cs = some p) : 0 ≤ p.1 := by
  cases cs with
  | nil => simp [parsePyFloat?] at hp
  | cons c rest =>
    rw [parsePyFloat?_cons] at hp
    by_cases h1 : c = '+'
    · rw [if_pos h1] at hp
      rcases Option.map_eq_some'.mp hp with ⟨q, _, rfl⟩
      simp
    · rw [if_neg h1, if_neg (h c (by simp))] at hp
      rcases Option.map_eq_some'.mp hp with ⟨q, _, rfl⟩
      simp

theorem parseHoursCore_nonneg {cs : List Char} (h : ∀ c ∈ cs, c ≠ '-') :
    0 ≤ parseHoursCore cs := by
  unfold parseHoursCore
  split
  · exact le_refl 0
  · have hm : ∀ c ∈ cs.map commaToDot, c ≠ '-' := by
      intro c hc
      rcases List.mem_map.mp hc with ⟨a, ha, rfl⟩
      unfold commaToDot
      split_ifs
      · decide
      · exact h a ha
    cases hp : parsePyFloat? (cs.map commaToDot) with
    | none => exact le_refl 0
    | some p =>
      have h0 := parsePyFloat?_fst_nonneg hm hp
      dsimp only
      split_ifs
      · have h60 : (0 : ℤ) ≤ p.1 * 60 := by omega
        exact mul_nonneg h60 (pow_nonneg (by norm_num) _)
      · exact rndDiv_nonneg (by omega) (pow_pos (by norm_num) _)

/-- Claim C6 (corrected), counterexample: the input "-1" parses to the
negative value -60, so parse_hours does not return a non-negative integer
for every input string. -/
theorem parse_hours_negative_cex : parse_hours "-1" = -60 ∧ parse_hours "-1" < 0 := by
  decide

/-- Claim C6 (amended): parse_hours yields 0 for empty input, normalizes a
comma decimal separator to a dot, parses decimal hours times 60 with
rounding, silently yields 0 on unparseable input, and its result is
non-negative for every input that contains no minus sign (a leading minus
sign produces a negative result, refuting the unconditional claim). -/
theorem parse_hours_amended :
    (∀ s : String, (∀ c ∈ s.data, c ≠ '-') → 0 ≤ parse_hours s) ∧
    parse_hours "" = 0 ∧ parse_hours "abc" = 0 ∧
    parse_hours "2,5" = 150 ∧ parse_hours "2.5" = 150 := by
  refine ⟨?_, by decide, by decide, by decide, by decide⟩
  intro s hs
  exact parseHoursCore_nonneg hs

/-- Witness for parse_hours_amended at the concrete minus-free input "7". -/
theorem parse_hours_amended_witness : 0 ≤ parse_hours "7" :=
  parse_hours_amended.1 "7" (by decide)

/-! ## Claim C7: minutes/text round trip -/

theorem parseHoursCore_natToStrData (a : Nat) :
    parseHoursCore (natToStrData a) = 60 * a := by
  have hdig := natToStrData_digits a
  have hne := natToStrData_ne_nil a
  unfold parseHoursCore
  rw [if_neg hne]
  rw [map_commaToDot_id (fun c hc => (isDigit_ne_signs (hdig c hc)).2.2.1)]
  rw [parsePyFloat?_digits hdig hne, digitsToNat_natToStrData]
  dsimp only
  rw [if_pos (le_refl 0)]
  simp
  ring

theorem parseHoursCore_dec (a d : Nat) (hd : d < 10) :
    parseHoursCore (natToStrData a ++ '.' :: [digitChar d]) = 6 * (10 * a + d) := by
  have hdig := natToStrData_digits a
  have hne := natToStrData_ne_nil a
  have hnc : ∀ c ∈ natToStrData a ++ '.' :: [digitChar d], c ≠ ',' := by
    intro c hc
    rcases List.mem_append.mp hc with hc | hc
    · exact (isDigit_ne_signs (hdig c hc)).2.2.1
    · rcases List.mem_cons.mp hc with rfl | hc
      · decide
      · simp at hc
        subst hc
        exact (isDigit_ne_signs (digitChar_isDigit hd)).2.2.1
  unfold parseHoursCore
  rw [if_neg (by simp [hne])]
  rw [map_commaToDot_id hnc]
  rw [parsePyFloat?_dec hdig hne hd, digitsToNat_natToStrData]
  dsimp only
  rw [if_neg (by norm_num)]
  have h1 : ((-(-1 : ℤ)).toNat) = 1 := by decide
  rw [h1, pow_one]
  have h2 : ((a * 10 + d : ℕ) : ℤ) * 60 = 10 * (6 * ((10 * a + d : ℕ) : ℤ)) := by
    push_cast
    ring
  rw [h2, rndDiv_mul_left (by norm_num)]
  push_cast
  ring

theorem format_minutes_data_int {m : Nat} (hm : m ≠ 0) (h60 : m % 60 = 0) :
    (format_minutes m).data = natToStrData (m / 60) := by
  unfold format_minutes
  rw [if_neg hm, if_pos h60]
  rfl

theorem format_minutes_data_frac {m : Nat} (hm : m ≠ 0) (h60 : m % 60 ≠ 0) :
    (format_minutes m).data =
      natToStrData ((rndDiv (10 * m) 60).toNat / 10) ++
        '.' :: [digitChar ((rndDiv (10 * m) 60).toNat % 10)] := by
  unfold format_minutes
  rw [if_neg hm, if_neg h60]
  dsimp only
  rw [String.data_append, String.data_append]
  have hdot : ("." : String).data = ['.'] := rfl
  rw [hdot]
  simp [natToStr]

/-- Claim C7: for every non-negative multiple of 6 minutes the
text/minutes round trip is exact, and for 95 minutes the round trip is
lossy exactly as documented: it renders as "1.6" and parses back to 96. -/
theorem duration_roundtrip :
    (∀ m : Nat, 6 ∣ m → parse_hours (format_minutes m) = m) ∧
    format_minutes 95 = "1.6" ∧ parse_hours "1.6" = 96 := by
  refine ⟨?_, by decide, by decide⟩
  intro m hm
  obtain ⟨k, rfl⟩ := hm
  by_cases h0 : 6 * k = 0
  · rw [h0]
    decide
  · by_cases h60 : (6 * k) % 60 = 0
    · unfold parse_hours
      rw [format_minutes_data_int h0 h60, parseHoursCore_natToStrData]
      omega
    · unfold parse_hours
      rw [format_minutes_data_frac h0 h60]
      have ht : rndDiv (10 * ((6 * k : ℕ) : ℤ)) 60 = (k : ℤ) := by
        have he : (10 : ℤ) * ((6 * k : ℕ) : ℤ) = 60 * (k : ℤ) := by
          push_cast
          ring
        rw [he]
        exact rndDiv_mul_left (by norm_num)
      rw [ht, Int.toNat_natCast]
      rw [parseHoursCore_dec (k / 10) (k % 10) (by omega)]
      omega

/-- Witness for duration_roundtrip at the concrete multiple 90. -/
theorem duration_roundtrip_witness : parse_hours (format_minutes 90) = 90 :=
  duration_roundtrip.1 90 (by decide)

/-! ## Claim C8: week window shape -/

theorem get_week_dates_explicit (today offset : ℤ) :
    get_week_dates today offset =
      [today - pyWeekday today + 7 * offset, today - pyWeekday today + 7 * offset + 1,
       today - pyWeekday today + 7 * offset + 2, today - pyWeekday today + 7 * offset + 3,
       today - pyWeekday today + 7 * offset + 4, today - pyWeekday today + 7 * offset + 5,
       today - pyWeekday today + 7 * offset + 6] := by
  unfold get_week_dates
  norm_num [List.range_succ]

/-- Claim C8: get_week_dates always returns the 7 consecutive dates that
start at the Monday of today's week shifted by the offset; for offset 0
the window contains today, and any offset just shifts the offset-0 window
by whole weeks. -/
theorem week_dates_monday (today offset : ℤ) :
    (get_week_dates today offset).length = 7 ∧
    get_week_dates today offset =
      [today - pyWeekday today + 7 * offset, today - pyWeekday today + 7 * offset + 1,
       today - pyWeekday today + 7 * offset + 2, today - pyWeekday today + 7 * offset + 3,
       today - pyWeekday today + 7 * offset + 4, today - pyWeekday today + 7 * offset + 5,
       today - pyWeekday today + 7 * offset + 6] ∧
    pyWeekday (today - pyWeekday today + 7 * offset) = 0 ∧
    today ∈ get_week_dates today 0 ∧
    get_week_dates today offset = (get_week_dates today 0).map (fun d => d + 7 * offset) := by
  refine ⟨by rw [get_week_dates_explicit]; rfl, get_week_dates_explicit today offset, ?_, ?_, ?_⟩
  · unfold pyWeekday
    omega
  · rw [get_week_dates_explicit]
    have hw : 0 ≤ pyWeekday today ∧ pyWeekday today < 7 := by
      unfold pyWeekday
      constructor
      · exact Int.emod_nonneg _ (by norm_num)
      · exact Int.emod_lt_of_pos _ (by norm_num)
    simp only [List.mem_cons, List.not_mem_nil, or_false]
    omega
  · rw [get_week_dates_explicit, get_week_dates_explicit]
    simp only [List.map_cons, List.map_nil, List.cons.injEq, and_true]
    refine ⟨by ring, by ring, by ring, by ring, by ring, by ring, by ring⟩

/-! ## Claim C9: locked dates never produce an action -/

theorem changeOp?_date {prefilled : List (ℤ × ℕ)} {f : DayInput} {op : ChangeOp}
    (h : changeOp? prefilled f = some op) : opDate op = f.date := by
  simp only [changeOp?] at h
  split_ifs at h <;> first | exact Option.noConfusion h | (cases h; rfl)

theorem changeOp?_disabled {prefilled : List (ℤ × ℕ)} {f : DayInput}
    (h : f.disabled = true) : changeOp? prefilled f = none := by
  unfold changeOp?
  rw [if_pos h]

/-- Claim C9: a date is locked exactly when it is strictly later than
today, and a submit over the fields the UI builds (disabled exactly for
future dates) never emits an action for a date after today. -/
theorem locked_dates_no_ops (today : ℤ) :
    (∀ d : ℤ, is_future_date d today = true ↔ today < d) ∧
    (∀ (vals : ℤ → String) (week : List ℤ) (prefilled : List (ℤ × ℕ)) (op : ChangeOp),
      op ∈ computeChangeOps prefilled (buildFields today vals week) → opDate op ≤ today) := by
  constructor
  · intro d
    unfold is_future_date
    exact decide_eq_true_iff
  · intro vals week prefilled op hop
    rcases List.mem_filterMap.mp hop with ⟨f, hf, hopf⟩
    rcases List.mem_map.mp hf with ⟨d, _, rfl⟩
    by_cases hfut : is_future_date d today = true
    · rw [changeOp?_disabled hfut] at hopf
      cases hopf
    · rw [changeOp?_date hopf]
      unfold is_future_date at hfut
      simp at hfut
      exact hfut

/-- Witness for locked_dates_no_ops: with today = 10, the unlocked date 9
with edit "2" emits an action, and its date is at most today. -/
theorem locked_dates_no_ops_witness : opDate (ChangeOp.cr 9 120) ≤ 10 :=
  (locked_dates_no_ops 10).2 (fun _ => "2") [9] [] (ChangeOp.cr 9 120) (by decide)

/-! ## Claim C10: non-positive booking is a no-op -/

/-- Claim C10: booking minutes less than or equal to 0 returns
immediately: no deletion, no creation, no network call, state unchanged. -/
theorem book_time_nonpositive_noop (sim : Sim) (pid : String) (d m : ℤ)
    (hm : m ≤ 0) : book_time sim pid d m = .ok sim := by
  unfold book_time
  rw [if_pos hm]

/-- Witness for book_time_nonpositive_noop at minutes 0 on a concrete
state (whose pending schedule and entries are untouched). -/
theorem book_time_nonpositive_noop_witness :
    book_time ⟨[⟨0, "p", 5, 30⟩], 2, [true]⟩ "p" 5 0 = .ok ⟨[⟨0, "p", 5, 30⟩], 2, [true]⟩ :=
  book_time_nonpositive_noop ⟨[⟨0, "p", 5, 30⟩], 2, [true]⟩ "p" 5 0 (by decide)

/-! ## Claim C1: the emitted action matches the spec's rule -/

theorem changeOp?_eq_spec (prefilled : List (ℤ × ℕ)) (f : DayInput)
    (hdis : f.disabled = false) :
    changeOp? prefilled f =
      specChangeOp f.date (textToMinutes f.value) ((lookupDay f.date prefilled).getD 0) := by
  simp only [changeOp?, specChangeOp, hdis, Bool.false_eq_true, if_false]
  rcases hl : lookupDay f.date prefilled with _ | v
  · simp only [Option.getD_none]
    split_ifs <;> simp_all
  · simp only [Option.getD_some]
    by_cases hv : 0 < v
    · split_ifs <;> simp_all
    · have hv0 : v = 0 := by omega
      subst hv0
      split_ifs <;> simp_all

/-- Claim C1: for every unlocked field the submit loop emits exactly the
action the spec's rule determines from editedMinutes and baselineMinutes
(0 if absent); the loop's ledger calls are exactly the emitted actions in
order; and the unchanged example (baseline 90 minutes, edit "1.5") emits
nothing. -/
theorem computeChangeOps_eq_spec :
    (∀ (prefilled : List (ℤ × ℕ)) (fields : List DayInput),
      computeChangeOps prefilled fields = fields.filterMap (fun f =>
        if f.disabled then none
        else specChangeOp f.date (textToMinutes f.value) ((lookupDay f.date prefilled).getD 0))) ∧
    (∀ (pid : String) (prefilled : List (ℤ × ℕ)) (sim : Sim) (fields : List DayInput),
      submit_hours pid prefilled sim fields = runOps pid sim (computeChangeOps prefilled fields)) ∧
    computeChangeOps [(2, 90)] [⟨2, "1.5", false⟩] = [] := by
  refine ⟨?_, ?_, by decide⟩
  · intro prefilled fields
    unfold computeChangeOps
    apply List.filterMap_congr
    intro f _
    by_cases hd : f.disabled = true
    · rw [changeOp?_disabled hd, if_pos hd]
    · have hd2 : f.disabled = false := by
        revert hd
        cases f.disabled <;> simp
      rw [changeOp?_eq_spec prefilled f hd2, if_neg hd]
  · intro pid prefilled sim fields
    induction fields generalizing sim with
    | nil => rfl
    | cons f rest ih =>
      simp only [submit_hours, computeChangeOps, List.filterMap_cons]
      cases hc : changeOp? prefilled f with
      | none => exact ih sim
      | some op =>
        simp only [runOps]
        cases ha : applyOp pid sim op with
        | ok s1 => exact ih s1
        | err s1 => rfl

/-! ## Ledger state-machine lemmas -/

theorem takeCall_entries (s : Sim) : (takeCall s).2.entries = s.entries := by
  rcases s with ⟨e, n, sch⟩
  cases sch <;> rfl

theorem deleteEach_ok_spec : ∀ (ids : List Nat) (sim s2 : Sim),
    deleteEach sim ids = .ok s2 → ∀ e ∈ s2.entries, e ∈ sim.entries ∧ e.id ∉ ids := by
  intro ids
  induction ids with
  | nil =>
    intro sim s2 h e he
    cases h
    exact ⟨he, by simp⟩
  | cons i rest ih =>
    intro sim s2 h e he
    simp only [deleteEach] at h
    split at h
    · cases h
    · obtain ⟨h1, h2⟩ := ih _ _ h e he
      rw [List.mem_filter] at h1
      have hmem : e ∈ sim.entries := by
        have := h1.1
        rwa [takeCall_entries] at this
      refine ⟨hmem, ?_⟩
      intro hin
      rcases List.mem_cons.mp hin with heq | hin2
      · have hne := h1.2
        simp at hne
        exact hne heq
      · exact h2 hin2

theorem deleteEach_frame : ∀ (ids : List Nat) (sim s2 : Sim),
    (deleteEach sim ids = .ok s2 ∨ deleteEach sim ids = .err s2) →
    ∀ e ∈ sim.entries, e.id ∉ ids → e ∈ s2.entries := by
  intro ids
  induction ids with
  | nil =>
    intro sim s2 h e he _
    rcases h with h | h
    · cases h
      exact he
    · cases h
  | cons i rest ih =>
    intro sim s2 h e he hid
    have hne : e.id ≠ i := fun hc => hid (by simp [hc])
    have hrest : e.id ∉ rest := fun hc => hid (by simp [hc])
    have hmem2 : e ∈ (takeCall sim).2.entries := by
      rw [takeCall_entries]
      exact he
    rcases h with h | h <;> simp only [deleteEach] at h <;> split at h
    · cases h
    · exact ih _ _ (Or.inl h) e (List.mem_filter.mpr ⟨hmem2, by simp [hne]⟩) hrest
    · cases h
      exact hmem2
    · exact ih _ _ (Or.inr h) e (List.mem_filter.mpr ⟨hmem2, by simp [hne]⟩) hrest

theorem delete_time_entry_ok_clears {sim s2 : Sim} {pid : String} {d : ℤ}
    (h : delete_time_entry sim pid d = .ok s2) :
    (∀ e ∈ s2.entries, e ∈ sim.entries) ∧
    (∀ e ∈ s2.entries, ¬(e.projectId = pid ∧ e.day = d)) := by
  simp only [delete_time_entry] at h
  split at h
  · cases h
  · constructor
    · intro e he
      have := (deleteEach_ok_spec _ _ _ h e he).1
      rwa [takeCall_entries] at this
    · rintro e he ⟨hp, hd⟩
      have h1 := (deleteEach_ok_spec _ _ _ h e he).1
      have h2 := (deleteEach_ok_spec _ _ _ h e he).2
      exact h2 (List.mem_map.mpr ⟨e, List.mem_filter.mpr ⟨h1, by simp [hp, hd]⟩, rfl⟩)

theorem delete_time_entry_frame {sim s2 : Sim} {pid : String} {d : ℤ}
    (h : delete_time_entry sim pid d = .ok s2 ∨ delete_time_entry sim pid d = .err s2)
    (hnodup : (sim.entries.map Entry.id).Nodup) :
    ∀ e ∈ sim.entries, e.day ≠ d → e ∈ s2.entries := by
  intro e he hday
  have hmem2 : e ∈ (takeCall sim).2.entries := by
    rw [takeCall_entries]
    exact he
  have hid : e.id ∉
      (((takeCall sim).2.entries.filter
        (fun x => decide (x.day = d) && decide (x.projectId = pid))).map Entry.id) := by
    intro hidm
    rcases List.mem_map.mp hidm with ⟨e2, he2, heq⟩
    have he2m : e2 ∈ sim.entries := by
      have := (List.mem_filter.mp he2).1
      rwa [takeCall_entries] at this
    have hdm := (List.mem_filter.mp he2).2
    simp at hdm
    have : e = e2 := List.inj_on_of_nodup_map hnodup he he2m heq.symm
    subst this
    exact hday hdm.1
  rcases h with h | h <;> simp only [delete_time_entry] at h <;> split at h
  · cases h
  · exact deleteEach_frame _ _ _ (Or.inl h) e hmem2 hid
  · cases h
    exact hmem2
  · exact deleteEach_frame _ _ _ (Or.inr h) e hmem2 hid

theorem applyOp_err_frame {pid : String} {sim s2 : Sim} {op : ChangeOp}
    (h : applyOp pid sim op = .err s2)
    (hnodup : (sim.entries.map Entry.id).Nodup) :
    ∀ e ∈ sim.entries, e.day ≠ opDate op → e ∈ s2.entries := by
  cases op with
  | del d => exact delete_time_entry_frame (Or.inr h) hnodup
  | cr d m =>
    intro e he hday
    simp only [applyOp, book_time] at h
    split at h
    · cases h
    · split at h
      · rename_i s heq
        cases h
        exact delete_time_entry_frame (Or.inr heq) hnodup e he hday
      · rename_i s1 heq
        have hfr := delete_time_entry_frame (Or.inl heq) hnodup e he hday
        split at h
        · cases h
          rw [takeCall_entries]
          exact hfr
        · cases h

theorem submit_hours_append (pid : String) (prefilled : List (ℤ × ℕ)) :
    ∀ (xs ys : List DayInput) (sim : Sim),
    submit_hours pid prefilled sim (xs ++ ys) =
      match submit_hours pid prefilled sim xs with
      | .ok s1 => submit_hours pid prefilled s1 ys
      | .err s1 => .err s1 := by
  intro xs
  induction xs with
  | nil => intro ys sim; rfl
  | cons f rest ih =>
    intro ys sim
    simp only [List.cons_append, submit_hours]
    cases hc : changeOp? prefilled f with
    | none =>
      dsimp only
      exact ih ys sim
    | some op =>
      dsimp only
      cases ha : applyOp pid sim op with
      | ok s1 =>
        dsimp only
        exact ih ys s1
      | err s1 => rfl

/-! ## Claim C2: partial failure leaves earlier effects applied -/

/-- Claim C2: if the fields before f all submit successfully (reaching
state s1) and f's ledger action fails, then the whole submit returns that
very failure state: no rollback of s1's entries on other days, no retry,
the exception propagates, and the fields after f never run. -/
theorem submit_failure_no_rollback (pid : String) (prefilled : List (ℤ × ℕ))
    (sim s1 s2 : Sim) (pre post : List DayInput) (f : DayInput) (op : ChangeOp)
    (hpre : submit_hours pid prefilled sim pre = .ok s1)
    (hop : changeOp? prefilled f = some op)
    (happ : applyOp pid s1 op = .err s2)
    (hids : (s1.entries.map Entry.id).Nodup) :
    submit_hours pid prefilled sim (pre ++ f :: post) = .err s2 ∧
    ∀ e ∈ s1.entries, e.day ≠ opDate op → e ∈ s2.entries := by
  constructor
  · rw [submit_hours_append pid prefilled pre (f :: post) sim, hpre]
    simp only [submit_hours, hop, happ]
  · exact applyOp_err_frame happ hids

/-- Witness for submit_failure_no_rollback: the first field books
day 1 successfully, the second field's booking fails at its GET call, and
the submit returns the error state in which day 1's entry is present. -/
theorem submit_failure_no_rollback_witness :
    submit_hours "p" [] ⟨[], 0, [false, false, true]⟩
        [⟨1, "1", false⟩, ⟨2, "2", false⟩] =
      .err ⟨[⟨0, "p", 1, 60⟩], 1, []⟩ :=
  (submit_failure_no_rollback "p" [] ⟨[], 0, [false, false, true]⟩
    ⟨[⟨0, "p", 1, 60⟩], 1, [true]⟩ ⟨[⟨0, "p", 1, 60⟩], 1, []⟩
    [⟨1, "1", false⟩] [] ⟨2, "2", false⟩ (ChangeOp.cr 2 120)
    (by decide) (by decide) (by decide) (by decide)).1

/-! ## Claim C3: create-or-replace leaves exactly one entry -/

/-- Claim C3: a successful booking of positive minutes first deletes every
pre-existing entry of that project and day and then creates the single new
entry, so afterwards exactly one entry for that project and day exists. -/
theorem book_time_single_entry (sim s2 : Sim) (pid : String) (d m : ℤ)
    (hm : 0 < m) (h : book_time sim pid d m = .ok s2) :
    (s2.entries.filter (fun e => decide (e.projectId = pid) && decide (e.day = d))).length = 1 := by
  simp only [book_time] at h
  rw [if_neg (by omega)] at h
  split at h
  · cases h
  · rename_i s1 heq
    split at h
    · cases h
    · cases h
      rw [List.filter_append]
      have hclear := (delete_time_entry_ok_clears heq).2
      have h1 : ((takeCall s1).2.entries.filter
          (fun e => decide (e.projectId = pid) && decide (e.day = d))) = [] := by
        apply List.filter_eq_nil_iff.mpr
        intro e he
        have hmem : e ∈ s1.entries := by
          rwa [takeCall_entries] at he
        have := hclear e hmem
        simp
        tauto
      rw [h1]
      simp

/-- Witness for book_time_single_entry: booking 60 minutes over two
pre-existing duplicate entries succeeds and leaves exactly the one new
entry for that project and day. -/
theorem book_time_single_entry_witness :
    (((⟨[⟨2, "p", 5, 60⟩], 3, []⟩ : Sim).entries.filter
      (fun e => decide (e.projectId = "p") && decide (e.day = 5))).length) = 1 :=
  book_time_single_entry ⟨[⟨0, "p", 5, 30⟩, ⟨1, "p", 5, 45⟩], 2, []⟩ ⟨[⟨2, "p", 5, 60⟩], 3, []⟩
    "p" 5 60 (by decide) (by decide)

/-! ## Day-aggregation lemmas -/

theorem lookupDay_append_none {d : ℤ} : ∀ (m l2 : List (ℤ × ℕ)),
    lookupDay d m = none → lookupDay d (m ++ l2) = lookupDay d l2 := by
  intro m l2
  induction m with
  | nil => intro _; rfl
  | cons p rest ih =>
    intro h
    rw [lookupDay] at h
    rw [List.cons_append, lookupDay]
    split at h
    · cases h
    · rename_i hne
      rw [if_neg hne]
      exact ih h

theorem lookupDay_dmAdd_self (m : List (ℤ × ℕ)) (d : ℤ) (v : ℕ) :
    lookupDay d (dmAdd m d v) = some ((lookupDay d m).getD 0 + v) := by
  unfold dmAdd
  cases h : lookupDay d m with
  | none =>
    rw [lookupDay_append_none m _ h]
    simp [lookupDay]
  | some w =>
    simp only [Option.getD_some]
    induction m with
    | nil => cases h
    | cons p rest ih =>
      rw [lookupDay] at h
      rw [List.map_cons, lookupDay]
      split at h
      · rename_i hp
        cases h
        rw [if_pos hp]
        simp [hp]
      · rename_i hp
        rw [if_neg hp]
        simp only [if_neg hp]
        exact ih h

theorem lookupDay_append (d2 : ℤ) : ∀ (m l2 : List (ℤ × ℕ)),
    lookupDay d2 (m ++ l2) =
      match lookupDay d2 m with
      | some w => some w
      | none => lookupDay d2 l2 := by
  intro m l2
  induction m with
  | nil => rfl
  | cons p rest ih =>
    rw [List.cons_append, lookupDay, lookupDay]
    by_cases hp : p.1 = d2
    · rw [if_pos hp, if_pos hp]
    · rw [if_neg hp, if_neg hp]
      exact ih

theorem lookupDay_single_other {d d2 : ℤ} (v : ℕ) (hne : d2 ≠ d) :
    lookupDay d2 [(d, v)] = none := by
  rw [lookupDay, if_neg (fun hc => hne hc.symm), lookupDay]

theorem lookupDay_map_update {m : List (ℤ × ℕ)} {d d2 : ℤ} (v : ℕ) (hne : d2 ≠ d) :
    lookupDay d2 (m.map (fun p => if p.1 = d then (p.1, p.2 + v) else p)) =
      lookupDay d2 m := by
  induction m with
  | nil => rfl
  | cons p rest ih =>
    rw [List.map_cons, lookupDay, lookupDay]
    by_cases hp : p.1 = d
    · have hh : ¬ p.1 = d2 := by
        rw [hp]
        exact fun hc => hne hc.symm
      rw [if_pos hp]
      rw [if_neg hh, if_neg hh]
      exact ih
    · rw [if_neg hp]
      by_cases h2 : p.1 = d2
      · rw [if_pos h2, if_pos h2]
      · rw [if_neg h2, if_neg h2]
        exact ih

theorem lookupDay_dmAdd_other {m : List (ℤ × ℕ)} {d d2 : ℤ} (v : ℕ) (hne : d2 ≠ d) :
    lookupDay d2 (dmAdd m d v) = lookupDay d2 m := by
  unfold dmAdd
  cases h : lookupDay d m with
  | none =>
    rw [lookupDay_append]
    cases h2 : lookupDay d2 m with
    | some w => rfl
    | none => exact lookupDay_single_other v hne
  | some w => exact lookupDay_map_update v hne

theorem sumMatching_cons_pos {pid : String} {d : ℤ} {e : RawEntry} {rest : List RawEntry}
    (hp : e.projectId = pid) (hd : e.day = d) :
    sumMatching pid d (e :: rest) = parse_duration e.duration + sumMatching pid d rest := by
  unfold sumMatching
  rw [List.filter_cons_of_pos (by simp [hp, hd])]
  simp

theorem sumMatching_cons_neg {pid : String} {d : ℤ} {e : RawEntry} {rest : List RawEntry}
    (h : ¬(e.projectId = pid ∧ e.day = d)) :
    sumMatching pid d (e :: rest) = sumMatching pid d rest := by
  unfold sumMatching
  rw [List.filter_cons_of_neg (by simp; tauto)]

theorem sumMatching_of_not_any {pid : String} {d : ℤ} {entries : List RawEntry}
    (h : entries.any (fun e => decide (e.projectId = pid) && decide (e.day = d)) = false) :
    sumMatching pid d entries = 0 := by
  unfold sumMatching
  have hnil : entries.filter (fun e => decide (e.projectId = pid) && decide (e.day = d)) = [] :=
    List.filter_eq_nil_iff.mpr (fun e he => by simpa using List.any_eq_false.mp h e he)
  rw [hnil]
  rfl

theorem lookupDay_aggGo (pid : String) (d : ℤ) :
    ∀ (entries : List RawEntry) (acc : List (ℤ × ℕ)),
    lookupDay d (aggGo pid entries acc) =
      if entries.any (fun e => decide (e.projectId = pid) && decide (e.day = d))
      then some ((lookupDay d acc).getD 0 + sumMatching pid d entries)
      else lookupDay d acc := by
  intro entries
  induction entries with
  | nil =>
    intro acc
    simp [aggGo]
  | cons e rest ih =>
    intro acc
    by_cases hp : e.projectId = pid
    · simp only [aggGo, if_pos hp]
      by_cases hd : e.day = d
      · have hpred : (decide (e.projectId = pid) && decide (e.day = d)) = true := by
          simp [hp, hd]
        rw [ih (dmAdd acc e.day (parse_duration e.duration))]
        rw [List.any_cons, hpred, Bool.true_or, if_pos rfl]
        rw [sumMatching_cons_pos hp hd]
        subst hd
        rw [lookupDay_dmAdd_self]
        cases hany : rest.any (fun x => decide (x.projectId = pid) && decide (x.day = e.day)) with
        | true =>
          rw [if_pos rfl]
          simp only [Option.getD_some, Option.some.injEq]
          omega
        | false =>
          rw [if_neg (by simp)]
          rw [sumMatching_of_not_any hany]
          simp only [Option.some.injEq]
          omega
      · have hpred : (decide (e.projectId = pid) && decide (e.day = d)) = false := by
          simp [hd]
        rw [ih (dmAdd acc e.day (parse_duration e.duration))]
        rw [List.any_cons, hpred, Bool.false_or]
        rw [lookupDay_dmAdd_other _ (fun hc => hd hc.symm)]
        rw [sumMatching_cons_neg (by tauto)]
    · simp only [aggGo, if_neg hp]
      have hpred : (decide (e.projectId = pid) && decide (e.day = d)) = false := by
        simp [hp]
      rw [ih acc, List.any_cons, hpred, Bool.false_or]
      rw [sumMatching_cons_neg (by tauto)]

theorem lookupDay_get_time_entries (pid : String) (week : List ℤ) (entries : List RawEntry)
    (d : ℤ) :
    lookupDay d (get_time_entries pid week entries) =
      if entries.any (fun e => decide (e.projectId = pid) && decide (e.day = d))
      then some (sumMatching pid d entries) else none := by
  unfold get_time_entries
  rw [lookupDay_aggGo]
  simp [lookupDay]

/-! ## Claim C4: which dates the baseline contains -/

/-- Claim C4 (corrected), counterexample: a single matching entry with a
zero-minute duration makes its date present in the baseline with value 0,
although the matching entries sum to zero, so a zero-sum date is not
absent from the mapping. -/
theorem aggregate_zero_sum_present :
    lookupDay 0 (get_time_entries "p" [0, 1, 2, 3, 4, 5, 6] [⟨"p", 0, "PT0M"⟩]) = some 0 ∧
    sumMatching "p" 0 [⟨"p", 0, "PT0M"⟩] = 0 := by
  decide

/-- Claim C4 (amended): the baseline contains exactly the dates that have
at least one entry matching the project, with value the (possibly zero)
sum of the matching entries' parsed durations; a date with no matching
entry is absent.  (The original claim's strict positivity fails: a date
whose matching entries sum to zero is present with value 0.) -/
theorem aggregate_lookup_amended (pid : String) (week : List ℤ) (entries : List RawEntry)
    (d : ℤ) :
    (entries.any (fun e => decide (e.projectId = pid) && decide (e.day = d)) = true →
      lookupDay d (get_time_entries pid week entries) = some (sumMatching pid d entries)) ∧
    (entries.any (fun e => decide (e.projectId = pid) && decide (e.day = d)) = false →
      lookupDay d (get_time_entries pid week entries) = none) := by
  constructor
  · intro h
    rw [lookupDay_get_time_entries, if_pos h]
  · intro h
    rw [lookupDay_get_time_entries, if_neg (by simp [h])]

/-- Witness for aggregate_lookup_amended: a day with one matching
30-minute entry is present with that sum. -/
theorem aggregate_lookup_amended_witness :
    lookupDay 0 (get_time_entries "p" [0] [⟨"p", 0, "PT30M"⟩]) = some 30 := by
  have h := (aggregate_lookup_amended "p" [0] [⟨"p", 0, "PT30M"⟩] 0).1 (by decide)
  rw [h]
  decide

/-! ## Claim C5: what the aggregation filters -/

/-- Claim C5 (corrected), counterexample: an entry of the right project
whose start date 100 lies outside the 7-day window 0..6 is still included
in the baseline under its own date; the aggregation performs no window
filtering at all. -/
theorem aggregate_out_of_window_included :
    lookupDay 100 (get_time_entries "p" [0, 1, 2, 3, 4, 5, 6] [⟨"p", 100, "PT1H"⟩]) = some 60 ∧
    (100 : ℤ) ∉ ([0, 1, 2, 3, 4, 5, 6] : List ℤ) := by
  decide

theorem aggGo_project_filter (pid : String) : ∀ (entries : List RawEntry) (acc : List (ℤ × ℕ)),
    aggGo pid entries acc = aggGo pid (entries.filter (fun e => decide (e.projectId = pid))) acc := by
  intro entries
  induction entries with
  | nil => intro acc; rfl
  | cons e rest ih =>
    intro acc
    by_cases hp : e.projectId = pid
    · rw [List.filter_cons_of_pos (by simp [hp])]
      simp only [aggGo, if_pos hp]
      exact ih _
    · rw [List.filter_cons_of_neg (by simp [hp])]
      simp only [aggGo, if_neg hp]
      exact ih _

/-- Claim C5 (amended): the aggregation excludes exactly the entries whose
project identifier differs from the given project id; it does not exclude
entries whose start date falls outside the 7-day window — every matching
entry contributes a baseline key for its own start date, in or out of the
window. -/
theorem aggregate_project_filter_amended (pid : String) (week : List ℤ)
    (entries : List RawEntry) :
    (get_time_entries pid week entries =
      get_time_entries pid week (entries.filter (fun e => decide (e.projectId = pid)))) ∧
    (∀ e ∈ entries, e.projectId = pid →
      (lookupDay e.day (get_time_entries pid week entries)).isSome = true) := by
  constructor
  · unfold get_time_entries
    exact aggGo_project_filter pid entries []
  · intro e he hp
    rw [lookupDay_get_time_entries, if_pos (List.any_eq_true.mpr ⟨e, he, by simp [hp]⟩)]
    rfl

/-- Witness for aggregate_project_filter_amended: a matching entry on day
5 yields a present baseline key for day 5. -/
theorem aggregate_project_filter_amended_witness :
    (lookupDay 5 (get_time_entries "p" [0] [⟨"p", 5, "PT1H"⟩])).isSome = true :=
  (aggregate_project_filter_amended "p" [0] [⟨"p", 5, "PT1H"⟩]).2 ⟨"p", 5, "PT1H"⟩
    (by decide) (by decide)
